import Mathlib

/-!
Shallow embedding of the `Vfs` module (`src/vfs.rs`): a virtual filesystem
layer mapping symbolic routes (lists of string segments) onto physical
partition roots, with a recursive snapshot reader and a timestamped change
log. Rust's `f64` timestamps are modelled as exact rationals, `HashMap` as
association lists, `Result<T, ()>` as `Except Unit T`, and the panicking
`unwrap` in `VfsItem::name` as an `Option` (with `none` standing for the
panic). Physical paths are Unix path strings; `Path::join` keeps its Rust
semantics (an absolute right operand replaces the base wholesale). The
recursive directory walk takes a fuel parameter to make the non-structural
recursion of `read_path` total; fuel exhaustion yields an error.
-/

/-- The single configuration flag the module consumes (`config.verbose` only
gates diagnostic printing, which has no effect on data). -/
structure Config where
  verbose : Bool
deriving DecidableEq

/-- A change-log record: `struct VfsChange { timestamp: f64, route: Vec<String> }`. -/
structure VfsChange where
  timestamp : ℚ
  route : List String
deriving DecidableEq

/-- The snapshot tree: `enum VfsItem { File { route, contents }, Dir { route, children } }`.
`Dir.children` is the `HashMap<String, VfsItem>`, modelled as an association list. -/
inductive VfsItem where
  | file (route : List String) (contents : String)
  | dir (route : List String) (children : List (String × VfsItem))

/-- Rust `VfsItem::route`: the route field of either variant. -/
def VfsItem.route : VfsItem → List String
  | .file r _ => r
  | .dir r _ => r

/-- Rust `VfsItem::name`: `self.route().last().unwrap()`. The `unwrap` panics when
the route is empty; the panic is modelled by `none`. -/
def VfsItem.name (item : VfsItem) : Option String :=
  item.route.getLast?

mutual
/-- Bool checker for the route invariant of a snapshot tree rooted at `r`:
the item's own route field is exactly `r`, and recursively every child keyed
`n` in a directory has route `r ++ [n]`. -/
def routeOkB : List String → VfsItem → Bool
  | r, .file route _ => route == r
  | r, .dir route children => route == r && childrenOkB r children

/-- Checker for a directory's children list against parent route `r`. -/
def childrenOkB : List String → List (String × VfsItem) → Bool
  | _, [] => true
  | r, (n, c) :: rest => routeOkB (r ++ [n]) c && childrenOkB r rest
end

/-- Unix semantics of Rust's `Path::join`: an absolute right operand (one
whose first character is `/`) replaces the base path wholesale, otherwise it
is appended after a separator. Absoluteness is checked on the character
list. -/
def pathJoin (base rel : String) : String :=
  match rel.data with
  | '/' :: _ => rel
  | _ => base ++ "/" ++ rel

/-- Outcome of `fs::metadata`: a directory, a regular file, or anything else
(special file, socket, ...). -/
inductive Metadata where
  | dir
  | file
  | other
deriving DecidableEq

/-- The ambient physical filesystem, abstracted as the three primitives the
reader calls. `metadata` is `fs::metadata` (`none` = error, e.g. the entry
does not exist or is unreadable); `readDir` is `fs::read_dir` plus the entry
iterator (`none` = the enumeration itself fails; each list element is one
iterator step, `Except.ok name` a successfully yielded entry name and
`Except.error ()` a failed iterator step); `readFileContents` is
`File::open` followed by `read_to_string` (`none` = either step fails, e.g.
permission denied or invalid UTF-8). -/
structure FileSystem where
  metadata : String → Option Metadata
  readDir : String → Option (List (Except Unit String))
  readFileContents : String → Option String

/-- The `Vfs` struct: partition table (name → absolute root path), the
construction instant (nanoseconds on an abstract monotone timeline), the
change log, the injected plugin chain (`handle_file_change`), and the
configuration. -/
structure Vfs where
  partitions : List (String × String)
  start_time : Nat
  change_history : List VfsChange
  plugin_chain : List String → Option (List (List String))
  config : Config

/-- Rust `Vfs::route_to_path`: split off the partition name, look it up, and —
special-casing an empty remainder to avoid a trailing separator — join the
remaining segments (joined by `/`) onto the partition root. -/
def Vfs.route_to_path (vfs : Vfs) (route : List String) : Option String :=
  match route with
  | [] => none
  | partition_name :: rest =>
    match vfs.partitions.lookup partition_name with
    | none => none
    | some partition =>
      if rest.isEmpty then
        some partition
      else
        some (pathJoin partition (String.intercalate "/" rest))

/-- Rust `Vfs::read_file`: open the file, read it fully as text, and wrap it as a
`File` item carrying the given route. -/
def read_file (fs : FileSystem) (route : List String) (path : String) :
    Except Unit VfsItem :=
  match fs.readFileContents path with
  | none => .error ()
  | some contents => .ok (.file route contents)

/-- Rust `HashMap::insert` on the association-list model of `children`: replace
the binding when the key is present, otherwise append it. -/
def insertChild : List (String × VfsItem) → String → VfsItem →
    List (String × VfsItem)
  | [], name, item => [(name, item)]
  | (k, v) :: rest, name, item =>
    if k = name then (k, item) :: rest else (k, v) :: insertChild rest name item

/-- The `for entry in reader` loop of `Vfs::read_dir`, parameterized by the
recursive reader applied to each child (`Vfs::read_path` at the remaining
recursion depth): a failed iterator step aborts the whole directory read; a
yielded entry of name `n` is read at route `route ++ [n]` and path
`path ++ "/" ++ n` (`entry.path()`), inserted into the accumulated children
on success and silently skipped on failure. -/
def readDirLoop (reader : List String → String → Except Unit VfsItem)
    (route : List String) (path : String) :
    List (Except Unit String) → List (String × VfsItem) →
    Except Unit (List (String × VfsItem))
  | [], acc => .ok acc
  | .error _ :: _, _ => .error ()
  | .ok name :: rest, acc =>
    match reader (route ++ [name]) (path ++ "/" ++ name) with
    | .ok child_item => readDirLoop reader route path rest (insertChild acc name child_item)
    | .error _ => readDirLoop reader route path rest acc

/-- Rust `Vfs::read_dir`, parameterized by the recursive reader for children:
enumerate the directory (failure of the enumeration itself, or of any
iterator step, fails the whole read), then fold the entries into a children
map via `readDirLoop` and wrap them as a `Dir`. -/
def read_dirWith (fs : FileSystem)
    (reader : List String → String → Except Unit VfsItem)
    (route : List String) (path : String) : Except Unit VfsItem :=
  match fs.readDir path with
  | none => .error ()
  | some entries =>
    match readDirLoop reader route path entries [] with
    | .error _ => .error ()
    | .ok children => .ok (.dir route children)

/-- Rust `Vfs::read_path`: query the entry's metadata and dispatch to the
directory or file reader; anything else (or a metadata error) fails. The
mutual recursion with `read_dir` of the source is realized by structural
recursion on a fuel bound on the depth, handing the directory reader the
recursive call at the remaining depth; at fuel 0 the read fails. -/
def read_path (fs : FileSystem) : Nat → List String → String → Except Unit VfsItem
  | 0, _, _ => .error ()
  | fuel + 1, route, path =>
    match fs.metadata path with
    | none => .error ()
    | some .dir => read_dirWith fs (fun r p => read_path fs fuel r p) route path
    | some .file => read_file fs route path
    | some .other => .error ()

/-- Rust `Vfs::read_dir` reading children at recursion depth `fuel`. -/
def read_dir (fs : FileSystem) (fuel : Nat) (route : List String)
    (path : String) : Except Unit VfsItem :=
  read_dirWith fs (fun r p => read_path fs fuel r p) route path

/-- Rust `Vfs::read`: resolve the route and read the resulting physical path; a
route that does not resolve fails immediately. -/
def Vfs.read (vfs : Vfs) (fs : FileSystem) (fuel : Nat) (route : List String) :
    Except Unit VfsItem :=
  match vfs.route_to_path route with
  | some path => read_path fs fuel route path
  | none => .error ()

/-- Rust `std::time::Duration`: whole seconds and the sub-second nanoseconds. -/
structure Duration where
  secs : Nat
  subsec_nanos : Nat
deriving DecidableEq

/-- Rust `Instant::elapsed` on an abstract monotone nanosecond timeline: the
duration from the instant `start` to the instant `now`. -/
def instantElapsed (start now : Nat) : Duration :=
  { secs := (now - start) / 1000000000, subsec_nanos := (now - start) % 1000000000 }

/-- Rust `Vfs::current_time` at ambient instant `now`:
`elapsed.as_secs() as f64 + elapsed.subsec_nanos() as f64 * 1e-9`, with the
`f64` arithmetic modelled exactly over the rationals. -/
def Vfs.current_time (vfs : Vfs) (now : Nat) : ℚ :=
  let elapsed := instantElapsed vfs.start_time now
  (elapsed.secs : ℚ) + (elapsed.subsec_nanos : ℚ) * (1 / 1000000000)

/-- Rust `Vfs::add_change`: pass the raw route through the plugin chain; on
`None` append nothing, on `Some routes` push one `VfsChange` per returned
route, all with the supplied timestamp, in order. (The `config.verbose`
prints are observational only.) -/
def Vfs.add_change (vfs : Vfs) (timestamp : ℚ) (route : List String) : Vfs :=
  match vfs.plugin_chain route with
  | some routes =>
    { vfs with
      change_history :=
        vfs.change_history ++ routes.map (fun r => { timestamp := timestamp, route := r }) }
  | none => vfs

/-- The backward scan of `Vfs::changes_since` over the reversed enumerated
log: while entries have `timestamp >= t` the marker is lowered to their
index; the first older entry stops the scan (`break`) with the marker as it
stands. -/
def csScan (t : ℚ) : List (Nat × VfsChange) → Option Nat → Option Nat
  | [], marker => marker
  | (index, value) :: rest, marker =>
    if t ≤ value.timestamp then csScan t rest (some index) else marker

/-- Rust `Vfs::changes_since`: scan the enumerated log from the most recent entry
backwards; slice from the final marker (`&log[index..]`), or the empty slice
(`&log[..0]`) when no entry qualified. -/
def Vfs.changes_since (vfs : Vfs) (timestamp : ℚ) : List VfsChange :=
  match csScan timestamp vfs.change_history.enum.reverse none with
  | some index => vfs.change_history.drop index
  | none => []

/-- Spec-side description of `changes_since`: the maximal contiguous suffix
of the log all of whose entries have `timestamp >= t` (stated by taking from
the reversed log while entries qualify). -/
def maxSuffixGe (history : List VfsChange) (t : ℚ) : List VfsChange :=
  (history.reverse.takeWhile (fun c => decide (t ≤ c.timestamp))).reverse


/-- Concrete Vfs for the C1 witness: two log entries at timestamps 1 and 2. -/
def vfsWitnessC1 : Vfs :=
  { partitions := [], start_time := 0,
    change_history := [{ timestamp := 1, route := ["a"] }, { timestamp := 2, route := ["b"] }],
    plugin_chain := fun _ => none, config := { verbose := false } }

/-- Concrete Vfs for the route-resolution witnesses: one partition `site`
rooted at `/tmp/site`. -/
def vfsWitnessSite : Vfs :=
  { partitions := [("site", "/tmp/site")], start_time := 0, change_history := [],
    plugin_chain := fun _ => none, config := { verbose := false } }

/-- Dummy filesystem for witnesses: everything fails. -/
def fsEmpty : FileSystem :=
  { metadata := fun _ => none, readDir := fun _ => none,
    readFileContents := fun _ => none }

/-- Concrete Vfs for the C9 sanitization counter-demonstration: one
partition `part` rooted at `/mnt/root`. -/
def vfsWitnessC9 : Vfs :=
  { partitions := [("part", "/mnt/root")], start_time := 0, change_history := [],
    plugin_chain := fun _ => none, config := { verbose := false } }

/-- Concrete Vfs for the C6 witness, suppressing gateway. -/
def vfsWitnessC6none : Vfs :=
  { partitions := [], start_time := 0,
    change_history := [{ timestamp := 1, route := ["old"] }],
    plugin_chain := fun _ => none, config := { verbose := false } }

/-- Concrete Vfs for the C6 witness: the gateway expands any route into
`[["a"], ["b"]]`. -/
def vfsWitnessC6 : Vfs :=
  { partitions := [], start_time := 0,
    change_history := [{ timestamp := 1, route := ["old"] }],
    plugin_chain := fun _ => some [["a"], ["b"]], config := { verbose := false } }

/-- Concrete filesystem for the directory witnesses: `/r` is a directory
with a readable child file `a` and a child `b` whose metadata query fails. -/
def fsWitnessDir : FileSystem :=
  { metadata := fun p =>
      if p = "/r" then some .dir else if p = "/r/a" then some .file else none,
    readDir := fun p => if p = "/r" then some [Except.ok "a", Except.ok "b"] else none,
    readFileContents := fun p => if p = "/r/a" then some "hi" else none }

/-- Concrete Vfs for the C7 witness: partition `p` rooted at `/r`. -/
def vfsWitnessC7 : Vfs :=
  { partitions := [("p", "/r")], start_time := 0, change_history := [],
    plugin_chain := fun _ => none, config := { verbose := false } }

theorem csScan_enumFrom (t : ℚ) (h : List VfsChange) : ∀ (s : Nat) (m : Option Nat),
    csScan t ((List.enumFrom s h).reverse) m =
      if (h.reverse.takeWhile (fun c => decide (t ≤ c.timestamp))).length = 0 then m
      else some (s + (h.length - (h.reverse.takeWhile (fun c => decide (t ≤ c.timestamp))).length)) := by
  induction h using List.reverseRecOn with
  | nil => intro s m; simp [csScan]
  | append_singleton h c ih =>
    intro s m
    rw [List.enumFrom_append]
    simp only [List.enumFrom, List.reverse_append, List.reverse_cons, List.reverse_nil,
      List.nil_append, List.cons_append, List.singleton_append, csScan]
    by_cases hc : t ≤ c.timestamp
    · rw [if_pos hc, ih]
      have htw : List.takeWhile (fun x => decide (t ≤ x.timestamp)) (c :: h.reverse)
          = c :: List.takeWhile (fun x => decide (t ≤ x.timestamp)) h.reverse := by
        simp [List.takeWhile_cons, hc]
      have hlen : ¬ ((c :: List.takeWhile (fun x => decide (t ≤ x.timestamp)) h.reverse).length = 0) := by
        simp
      conv_rhs => rw [htw, if_neg hlen]
      by_cases hk : (List.takeWhile (fun x => decide (t ≤ x.timestamp)) h.reverse).length = 0
      · rw [if_pos hk]
        congr 1
        simp only [hk, List.length_cons, List.length_append, List.length_nil]
        omega
      · rw [if_neg hk]
        congr 1
        simp only [List.length_cons, List.length_append, List.length_nil]
        omega
    · rw [if_neg hc]
      have htw : List.takeWhile (fun x => decide (t ≤ x.timestamp)) (c :: h.reverse) = [] := by
        simp [List.takeWhile_cons, hc]
      conv_rhs => rw [htw]
      simp


theorem changes_since_eq_maxSuffixGe (vfs : Vfs) (t : ℚ) :
    vfs.changes_since t = maxSuffixGe vfs.change_history t := by
  unfold Vfs.changes_since maxSuffixGe
  rw [show vfs.change_history.enum = List.enumFrom 0 vfs.change_history from rfl,
    csScan_enumFrom]
  by_cases h0 :
      (vfs.change_history.reverse.takeWhile (fun c => decide (t ≤ c.timestamp))).length = 0
  · rw [if_pos h0]
    rw [List.length_eq_zero.mp h0]
    simp
  · rw [if_neg h0]
    simp only []
    have hsplit : (vfs.change_history.reverse.takeWhile (fun c => decide (t ≤ c.timestamp))) ++
        (vfs.change_history.reverse.dropWhile (fun c => decide (t ≤ c.timestamp))) =
        vfs.change_history.reverse := List.takeWhile_append_dropWhile _ _
    generalize hT :
      vfs.change_history.reverse.takeWhile (fun c => decide (t ≤ c.timestamp)) = T at h0 hsplit ⊢
    generalize hD :
      vfs.change_history.reverse.dropWhile (fun c => decide (t ≤ c.timestamp)) = D at hsplit
    have hh : vfs.change_history = D.reverse ++ T.reverse := by
      rw [← List.reverse_reverse vfs.change_history, ← hsplit, List.reverse_append]
    rw [hh]
    rw [show 0 + ((D.reverse ++ T.reverse).length - T.length) = D.reverse.length by
      simp only [List.length_append, List.length_reverse]; omega]
    rw [List.drop_left]


theorem maxSuffixGe_suffix (h : List VfsChange) (t : ℚ) :
    (h.reverse.dropWhile (fun c => decide (t ≤ c.timestamp))).reverse ++ maxSuffixGe h t = h := by
  unfold maxSuffixGe
  rw [← List.reverse_append, List.takeWhile_append_dropWhile, List.reverse_reverse]

theorem maxSuffixGe_mem_le (h : List VfsChange) (t : ℚ) :
    ∀ c ∈ maxSuffixGe h t, t ≤ c.timestamp := by
  intro c hc
  unfold maxSuffixGe at hc
  rw [List.mem_reverse] at hc
  simpa using List.mem_takeWhile_imp hc

theorem dropWhile_lt_of_antitone (t : ℚ) :
    ∀ (l : List VfsChange), l.Pairwise (fun a b => b.timestamp ≤ a.timestamp) →
      ∀ c ∈ l.dropWhile (fun c => decide (t ≤ c.timestamp)), ¬ t ≤ c.timestamp := by
  intro l
  induction l with
  | nil => simp
  | cons x xs ih =>
    intro hp c hc
    rw [List.pairwise_cons] at hp
    rw [List.dropWhile_cons] at hc
    by_cases hx : t ≤ x.timestamp
    · rw [if_pos (by simpa using hx)] at hc
      exact ih hp.2 c hc
    · rw [if_neg (by simpa using hx)] at hc
      rcases List.mem_cons.mp hc with rfl | hmem
      · exact hx
      · intro hle
        exact hx (le_trans hle (hp.1 c hmem))

theorem maxSuffixGe_complete (h : List VfsChange) (t : ℚ)
    (hsorted : h.Pairwise (fun a b => a.timestamp ≤ b.timestamp)) :
    ∀ c ∈ h, t ≤ c.timestamp → c ∈ maxSuffixGe h t := by
  intro c hc hle
  have hrev : h.reverse.Pairwise (fun a b => b.timestamp ≤ a.timestamp) :=
    List.pairwise_reverse.mpr hsorted
  rw [← maxSuffixGe_suffix h t] at hc
  rcases List.mem_append.mp hc with hmem | hmem
  · exact absurd hle
      (dropWhile_lt_of_antitone t h.reverse hrev c (List.mem_reverse.mp hmem))
  · exact hmem

theorem maxSuffixGe_all (h : List VfsChange) (t : ℚ)
    (hall : ∀ c ∈ h, t ≤ c.timestamp) : maxSuffixGe h t = h := by
  unfold maxSuffixGe
  rw [List.takeWhile_eq_self_iff.mpr (by intro x hx; simpa using hall x (List.mem_reverse.mp hx)),
    List.reverse_reverse]

theorem maxSuffixGe_none (h : List VfsChange) (t : ℚ)
    (hnone : ∀ c ∈ h, ¬ t ≤ c.timestamp) : maxSuffixGe h t = [] := by
  cases hres : maxSuffixGe h t with
  | nil => rfl
  | cons x xs =>
    have hx : x ∈ maxSuffixGe h t := by rw [hres]; exact List.mem_cons_self x xs
    have hxh : x ∈ h := by
      rw [← maxSuffixGe_suffix h t]
      exact List.mem_append.mpr (Or.inr hx)
    exact absurd (maxSuffixGe_mem_le h t x hx) (hnone x hxh)


/-- C1: for a change log sorted by non-decreasing timestamp, `changes_since t`
returns exactly the maximal contiguous suffix of `change_history` whose
entries all have timestamp `>= t`, in original order: the result is that
suffix (`maxSuffixGe`), it is a contiguous suffix of the log, every returned
entry qualifies, every qualifying entry is returned, the whole log comes back
when every entry qualifies, and the empty slice when the log is empty or no
entry qualifies. -/
theorem changes_since_returns_maximal_qualifying_suffix (vfs : Vfs) (t : ℚ)
    (hsorted : vfs.change_history.Pairwise (fun a b => a.timestamp ≤ b.timestamp)) :
    vfs.changes_since t = maxSuffixGe vfs.change_history t ∧
    (∃ dropped, dropped ++ vfs.changes_since t = vfs.change_history) ∧
    (∀ c ∈ vfs.changes_since t, t ≤ c.timestamp) ∧
    (∀ c ∈ vfs.change_history, t ≤ c.timestamp → c ∈ vfs.changes_since t) ∧
    ((∀ c ∈ vfs.change_history, t ≤ c.timestamp) → vfs.changes_since t = vfs.change_history) ∧
    (vfs.change_history = [] → vfs.changes_since t = []) ∧
    ((∀ c ∈ vfs.change_history, ¬ t ≤ c.timestamp) → vfs.changes_since t = []) := by
  have heq := changes_since_eq_maxSuffixGe vfs t
  refine ⟨heq, ⟨_, by rw [heq]; exact maxSuffixGe_suffix vfs.change_history t⟩, ?_, ?_, ?_, ?_, ?_⟩
  · rw [heq]; exact maxSuffixGe_mem_le vfs.change_history t
  · rw [heq]; exact maxSuffixGe_complete vfs.change_history t hsorted
  · rw [heq]; exact maxSuffixGe_all vfs.change_history t
  · intro hnil; rw [heq, hnil]; rfl
  · rw [heq]; exact maxSuffixGe_none vfs.change_history t

/-- Witness for C1 at timestamp 2 on a concrete sorted two-entry log. -/
theorem changes_since_returns_maximal_qualifying_suffix_witness :
    vfsWitnessC1.changes_since 2 = [{ timestamp := 2, route := ["b"] }] := by
  have h := changes_since_returns_maximal_qualifying_suffix vfsWitnessC1 2 (by
    unfold vfsWitnessC1
    simp only [List.pairwise_cons, List.mem_cons]
    norm_num)
  rw [h.1]
  rfl


/-- C4: route resolution returns `none` (the unknown-partition failure)
exactly when the route is empty or its first segment is not a registered
partition name; a registered first segment always resolves; and `read`
fails outright whenever resolution fails. -/
theorem route_resolution_unknown_partition (vfs : Vfs) :
    (∀ route, vfs.route_to_path route = none ↔
      (route = [] ∨ ∃ first rest, route = first :: rest ∧
        vfs.partitions.lookup first = none)) ∧
    (∀ first rest root, vfs.partitions.lookup first = some root →
      ∃ p, vfs.route_to_path (first :: rest) = some p) ∧
    (∀ route fs fuel, vfs.route_to_path route = none →
      vfs.read fs fuel route = .error ()) := by
  refine ⟨?_, ?_, ?_⟩
  · intro route
    match route with
    | [] => simp [Vfs.route_to_path]
    | first :: rest =>
      simp only [Vfs.route_to_path]
      cases hl : vfs.partitions.lookup first with
      | none =>
        simp only []
        constructor
        · intro _
          exact Or.inr ⟨first, rest, rfl, hl⟩
        · intro _
          trivial
      | some root =>
        simp only []
        constructor
        · intro hcontra
          by_cases hr : rest.isEmpty
          · rw [if_pos hr] at hcontra
            exact absurd hcontra (by simp)
          · rw [if_neg hr] at hcontra
            exact absurd hcontra (by simp)
        · rintro (h | ⟨f, r, heq, hnone⟩)
          · exact absurd h (by simp)
          · injection heq with h1 h2
            subst h1
            rw [hl] at hnone
            exact absurd hnone (by simp)
  · intro first rest root hl
    simp only [Vfs.route_to_path, hl]
    by_cases hr : rest.isEmpty
    · exact ⟨root, by rw [if_pos hr]⟩
    · exact ⟨pathJoin root (String.intercalate "/" rest), by rw [if_neg hr]⟩
  · intro route fs fuel hnone
    unfold Vfs.read
    rw [hnone]

/-- Witness for C4: `["unknown", "x"]` does not resolve and `read` fails on
it, while the registered partition resolves. -/
theorem route_resolution_unknown_partition_witness :
    vfsWitnessSite.route_to_path ["unknown", "x"] = none ∧
    vfsWitnessSite.read fsEmpty 5 ["unknown", "x"] = .error () ∧
    (∃ p, vfsWitnessSite.route_to_path ["site", "x"] = some p) := by
  have h := route_resolution_unknown_partition vfsWitnessSite
  have h1 : vfsWitnessSite.route_to_path ["unknown", "x"] = none :=
    (h.1 ["unknown", "x"]).mpr (Or.inr ⟨"unknown", ["x"], rfl, rfl⟩)
  exact ⟨h1, h.2.2 ["unknown", "x"] fsEmpty 5 h1, h.2.1 "site" ["x"] "/tmp/site" rfl⟩

/-- C5: for a registered partition, a route with no further segments
resolves to exactly the stored root path (no trailing separator), and a
route with further segments resolves to the root joined (with `Path::join`
semantics) with the segments interleaved with `/`. -/
theorem route_resolution_joins_partition_root (vfs : Vfs) (first : String)
    (rest : List String) (root : String)
    (hl : vfs.partitions.lookup first = some root) :
    (rest = [] → vfs.route_to_path (first :: rest) = some root) ∧
    (rest ≠ [] → vfs.route_to_path (first :: rest) =
      some (pathJoin root (String.intercalate "/" rest))) := by
  constructor
  · intro h
    subst h
    simp [Vfs.route_to_path, hl]
  · intro h
    cases rest with
    | nil => exact absurd rfl h
    | cons a l => simp [Vfs.route_to_path, hl]

/-- Witness for C5 on the concrete `site` partition: the bare partition
route gives the root itself, and a two-segment remainder is joined on. -/
theorem route_resolution_joins_partition_root_witness :
    vfsWitnessSite.route_to_path ["site"] = some "/tmp/site" ∧
    vfsWitnessSite.route_to_path ["site", "posts", "foo.md"] =
      some "/tmp/site/posts/foo.md" := by
  have h0 := (route_resolution_joins_partition_root vfsWitnessSite "site" []
    "/tmp/site" rfl).1 rfl
  have h1 := (route_resolution_joins_partition_root vfsWitnessSite "site"
    ["posts", "foo.md"] "/tmp/site" rfl).2 (by simp)
  refine ⟨h0, ?_⟩
  rw [h1]
  rfl

/-- C9: route resolution performs no sanitization: a registered partition
admits a route (here one whose segment is itself an absolute path, which
`Path::join` substitutes wholesale) that resolves successfully to a
physical path outside the partition root. -/
theorem route_resolution_escapes_partition_root :
    ∃ (vfs : Vfs) (root : String) (route : List String) (p : String),
      vfs.partitions = [("part", root)] ∧
      vfs.route_to_path route = some p ∧
      p ≠ root ∧
      ((root ++ "/").data.isPrefixOf p.data) = false := by
  refine ⟨vfsWitnessC9, "/mnt/root", ["part", "/etc/passwd"], "/etc/passwd", rfl, ?_, ?_, ?_⟩
  · decide
  · decide
  · decide

/-- C10: `VfsItem::name` returns the last route segment whenever the route
is non-empty, returns the modelled panic (`none`) on an empty route, and
nothing prevents constructing an item with an empty route. -/
theorem name_returns_last_route_segment :
    (∀ (item : VfsItem) (h : item.route ≠ []),
      item.name = some (item.route.getLast h)) ∧
    (∀ item : VfsItem, item.route = [] → item.name = none) ∧
    (∃ item : VfsItem, item.route = [] ∧ item.name = none) := by
  refine ⟨?_, ?_, ⟨.file [] "", rfl, rfl⟩⟩
  · intro item h
    exact List.getLast?_eq_getLast _ h
  · intro item h
    unfold VfsItem.name
    rw [h]
    rfl

/-- Witness for C10: a file at route `["a", "b"]` is named `b`; a file with
an empty route hits the modelled panic. -/
theorem name_returns_last_route_segment_witness :
    (VfsItem.file ["a", "b"] "x").name = some "b" ∧
    (VfsItem.file [] "x").name = none := by
  constructor
  · have h := name_returns_last_route_segment.1 (VfsItem.file ["a", "b"] "x")
      (by simp [VfsItem.route])
    simpa [VfsItem.route] using h
  · exact name_returns_last_route_segment.2.1 (VfsItem.file [] "x") rfl

/-- C6: `add_change` appends nothing when the plugin chain yields no routes
(the whole state is unchanged), and appends exactly one entry per yielded
route, all with the supplied timestamp, in the returned order, changing no
other field. -/
theorem add_change_appends_expanded_routes (vfs : Vfs) (t : ℚ) (route : List String) :
    (vfs.plugin_chain route = none → vfs.add_change t route = vfs) ∧
    (∀ routes, vfs.plugin_chain route = some routes →
      (vfs.add_change t route).change_history =
        vfs.change_history ++ routes.map (fun r => { timestamp := t, route := r }) ∧
      (vfs.add_change t route).partitions = vfs.partitions ∧
      (vfs.add_change t route).start_time = vfs.start_time ∧
      (vfs.add_change t route).plugin_chain = vfs.plugin_chain ∧
      (vfs.add_change t route).config = vfs.config) := by
  constructor
  · intro h
    unfold Vfs.add_change
    rw [h]
  · intro routes h
    unfold Vfs.add_change
    rw [h]
    exact ⟨rfl, rfl, rfl, rfl, rfl⟩

/-- Witness for C6: a gateway returning `[a, b]` appends exactly two
entries with the same timestamp in order; a gateway returning nothing
leaves the Vfs unchanged. -/
theorem add_change_appends_expanded_routes_witness :
    (vfsWitnessC6.add_change 2 ["raw"]).change_history =
      [{ timestamp := 1, route := ["old"] }, { timestamp := 2, route := ["a"] },
        { timestamp := 2, route := ["b"] }] ∧
    vfsWitnessC6none.add_change 2 ["raw"] = vfsWitnessC6none := by
  constructor
  · have h := (add_change_appends_expanded_routes vfsWitnessC6 2 ["raw"]).2
      [["a"], ["b"]] rfl
    rw [h.1]
    rfl
  · exact (add_change_appends_expanded_routes vfsWitnessC6none 2 ["raw"]).1 rfl

theorem current_time_eq (vfs : Vfs) (now : Nat) :
    vfs.current_time now = ((now - vfs.start_time : ℕ) : ℚ) / 1000000000 := by
  unfold Vfs.current_time instantElapsed
  simp only []
  rw [eq_div_iff (by norm_num : (1000000000 : ℚ) ≠ 0)]
  rw [add_mul, mul_assoc]
  norm_num
  norm_cast
  omega

/-- C8: `current_time` is the elapsed fractional seconds since construction
(exactly the elapsed nanoseconds over 1e9), and is monotone in the ambient
instant: non-decreasing across calls, strictly increasing when time has
really elapsed between them. -/
theorem current_time_elapsed_monotone (vfs : Vfs) (now1 now2 : Nat)
    (h1 : vfs.start_time ≤ now1) (h12 : now1 ≤ now2) :
    vfs.current_time now1 = ((now1 - vfs.start_time : ℕ) : ℚ) / 1000000000 ∧
    vfs.current_time now1 ≤ vfs.current_time now2 ∧
    (now1 < now2 → vfs.current_time now1 < vfs.current_time now2) := by
  refine ⟨current_time_eq vfs now1, ?_, ?_⟩
  · rw [current_time_eq, current_time_eq]
    have hle : ((now1 - vfs.start_time : ℕ) : ℚ) ≤ ((now2 - vfs.start_time : ℕ) : ℚ) := by
      exact_mod_cast Nat.sub_le_sub_right h12 vfs.start_time
    exact (div_le_div_iff_of_pos_right (by norm_num)).mpr hle
  · intro hlt
    rw [current_time_eq, current_time_eq]
    have hlt2 : ((now1 - vfs.start_time : ℕ) : ℚ) < ((now2 - vfs.start_time : ℕ) : ℚ) := by
      exact_mod_cast Nat.sub_lt_sub_right h1 hlt
    exact (div_lt_div_iff_of_pos_right (by norm_num)).mpr hlt2

/-- Witness for C8 at start time 0 and instants 1 and 2 nanoseconds. -/
theorem current_time_elapsed_monotone_witness :
    vfsWitnessSite.current_time 1 ≤ vfsWitnessSite.current_time 2 ∧
    vfsWitnessSite.current_time 1 < vfsWitnessSite.current_time 2 := by
  have h := current_time_elapsed_monotone vfsWitnessSite 1 2 (by decide) (by norm_num)
  exact ⟨h.2.1, h.2.2 (by norm_num)⟩


/-- C3: a failure of the top-level entry propagates out of `read` as an
outright error, never a partial result: an unresolvable route, a failing
metadata query, an unsupported entry type, a failing top-level file read,
and a failing top-level directory enumeration each yield `error`. -/
theorem read_propagates_top_level_failure (vfs : Vfs) (fs : FileSystem)
    (fuel : Nat) (route : List String) :
    (vfs.route_to_path route = none → vfs.read fs fuel route = .error ()) ∧
    (∀ path, vfs.route_to_path route = some path →
      (fs.metadata path = none → vfs.read fs fuel route = .error ()) ∧
      (fs.metadata path = some .other → vfs.read fs fuel route = .error ()) ∧
      (fs.metadata path = some .file → fs.readFileContents path = none →
        vfs.read fs fuel route = .error ()) ∧
      (fs.metadata path = some .dir → fs.readDir path = none →
        vfs.read fs fuel route = .error ())) := by
  constructor
  · intro hnone
    unfold Vfs.read
    rw [hnone]
  · intro path hpath
    unfold Vfs.read
    rw [hpath]
    cases fuel with
    | zero => exact ⟨fun _ => rfl, fun _ => rfl, fun _ _ => rfl, fun _ _ => rfl⟩
    | succ n =>
      refine ⟨?_, ?_, ?_, ?_⟩
      · intro hm
        simp [read_path, hm]
      · intro hm
        simp [read_path, hm]
      · intro hm hf
        simp [read_path, hm, read_file, hf]
      · intro hm hd
        simp [read_path, hm, read_dirWith, hd]

/-- Witness for C3: with an everything-fails filesystem, both an unknown
partition and an unreadable resolved top-level entry fail `read` outright. -/
theorem read_propagates_top_level_failure_witness :
    vfsWitnessSite.read fsEmpty 5 ["nope"] = .error () ∧
    vfsWitnessSite.read fsEmpty 5 ["site", "x"] = .error () := by
  constructor
  · exact (read_propagates_top_level_failure vfsWitnessSite fsEmpty 5 ["nope"]).1 rfl
  · exact ((read_propagates_top_level_failure vfsWitnessSite fsEmpty 5 ["site", "x"]).2
      "/tmp/site/x" rfl).1 rfl


theorem insertChild_not_mem (acc : List (String × VfsItem)) (n : String) (it : VfsItem)
    (h : n ∉ acc.map Prod.fst) : insertChild acc n it = acc ++ [(n, it)] := by
  induction acc with
  | nil => rfl
  | cons kv rest ih =>
    obtain ⟨k, v⟩ := kv
    rw [List.map_cons, List.mem_cons] at h
    push_neg at h
    simp only [insertChild]
    rw [if_neg (fun hh => h.1 hh.symm), ih h.2]
    rfl

theorem readDirLoop_all_ok (reader : List String → String → Except Unit VfsItem)
    (route : List String) (path : String) :
    ∀ (names : List String) (acc : List (String × VfsItem)),
      names.Nodup → (∀ n ∈ names, n ∉ acc.map Prod.fst) →
      readDirLoop reader route path (names.map Except.ok) acc =
        .ok (acc ++ names.filterMap (fun n =>
          match reader (route ++ [n]) (path ++ "/" ++ n) with
          | .ok item => some (n, item)
          | .error _ => none)) := by
  intro names
  induction names with
  | nil =>
    intro acc _ _
    simp [readDirLoop]
  | cons n rest ih =>
    intro acc hnodup hkeys
    rw [List.nodup_cons] at hnodup
    simp only [List.map_cons, readDirLoop]
    cases hr : reader (route ++ [n]) (path ++ "/" ++ n) with
    | ok item =>
      simp only []
      rw [insertChild_not_mem acc n item (hkeys n (List.mem_cons_self n rest))]
      rw [ih (acc ++ [(n, item)]) hnodup.2 ?keys]
      · simp [List.filterMap_cons, hr, List.append_assoc]
      case keys =>
        intro m hm
        rw [List.map_append]
        simp only [List.map_cons, List.map_nil, List.mem_append, List.mem_singleton]
        rintro (hin | rfl)
        · exact hkeys m (List.mem_cons_of_mem n hm) hin
        · exact hnodup.1 hm
    | error e =>
      simp only []
      rw [ih acc hnodup.2 (fun m hm => hkeys m (List.mem_cons_of_mem n hm))]
      simp [List.filterMap_cons, hr]

theorem filterMap_keys_filter (g : String → Except Unit VfsItem) :
    ∀ names : List String,
      (names.filterMap (fun n => match g n with
        | .ok item => some (n, item)
        | .error _ => none)).map Prod.fst =
      names.filter (fun n => (g n).isOk) := by
  intro names
  induction names with
  | nil => rfl
  | cons n rest ih =>
    cases hr : g n with
    | ok item => simp [List.filterMap_cons, List.filter_cons, hr, Except.isOk, Except.toBool, ih]
    | error e => simp [List.filterMap_cons, List.filter_cons, hr, Except.isOk, Except.toBool, ih]

/-- C2: a directory whose enumeration succeeds (yielding distinct child
names) always reads successfully: its children map holds exactly the
entries whose own recursive read succeeds, keyed by child name, and its key
set is exactly the readable child names — failing children are silently
omitted and never fail the directory read. -/
theorem read_dir_omits_failing_children (fs : FileSystem) (fuel : Nat)
    (route : List String) (path : String) (names : List String)
    (hrd : fs.readDir path = some (names.map Except.ok))
    (hnodup : names.Nodup) :
    read_dir fs fuel route path = .ok (.dir route (names.filterMap (fun n =>
      match read_path fs fuel (route ++ [n]) (path ++ "/" ++ n) with
      | .ok item => some (n, item)
      | .error _ => none))) ∧
    (names.filterMap (fun n =>
      match read_path fs fuel (route ++ [n]) (path ++ "/" ++ n) with
      | .ok item => some (n, item)
      | .error _ => none)).map Prod.fst =
      names.filter (fun n => (read_path fs fuel (route ++ [n]) (path ++ "/" ++ n)).isOk) := by
  constructor
  · unfold read_dir read_dirWith
    rw [hrd]
    simp only []
    rw [readDirLoop_all_ok (fun r p => read_path fs fuel r p) route path names []
      hnodup (by simp)]
    simp
  · exact filterMap_keys_filter (fun n => read_path fs fuel (route ++ [n]) (path ++ "/" ++ n))
      names

/-- Witness for C2: of the two children of `/r`, only the readable `a`
appears in the resulting children map, and the read still succeeds. -/
theorem read_dir_omits_failing_children_witness :
    fsWitnessDir.readDir "/r" = some (["a", "b"].map Except.ok) ∧
    read_dir fsWitnessDir 1 ["p"] "/r" =
      .ok (.dir ["p"] [("a", .file ["p", "a"] "hi")]) := by
  refine ⟨rfl, ?_⟩
  have h := (read_dir_omits_failing_children fsWitnessDir 1 ["p"] "/r" ["a", "b"]
    rfl (by decide)).1
  rw [h]
  rfl


theorem childrenOkB_iff (r : List String) :
    ∀ children : List (String × VfsItem),
      childrenOkB r children = true ↔
        ∀ p ∈ children, routeOkB (r ++ [p.1]) p.2 = true := by
  intro children
  induction children with
  | nil => simp [childrenOkB]
  | cons p rest ih =>
    obtain ⟨n, c⟩ := p
    simp only [childrenOkB, Bool.and_eq_true, ih, List.mem_cons]
    constructor
    · rintro ⟨h1, h2⟩ q (rfl | hq)
      · exact h1
      · exact h2 q hq
    · intro h
      exact ⟨h (n, c) (Or.inl rfl), fun q hq => h q (Or.inr hq)⟩

theorem insertChild_forall {Q : String × VfsItem → Prop} (n : String) (it : VfsItem)
    (hn : Q (n, it)) :
    ∀ (acc : List (String × VfsItem)), (∀ p ∈ acc, Q p) →
      ∀ p ∈ insertChild acc n it, Q p := by
  intro acc
  induction acc with
  | nil =>
    intro _ p hp
    simp only [insertChild, List.mem_singleton] at hp
    exact hp ▸ hn
  | cons kv rest ih =>
    obtain ⟨k, v⟩ := kv
    intro hacc p hp
    simp only [insertChild] at hp
    by_cases hk : k = n
    · rw [if_pos hk] at hp
      rcases List.mem_cons.mp hp with rfl | hmem
      · exact hk.symm ▸ hn
      · exact hacc _ (List.mem_cons_of_mem _ hmem)
    · rw [if_neg hk] at hp
      rcases List.mem_cons.mp hp with rfl | hmem
      · exact hacc _ (List.mem_cons_self _ _)
      · exact ih (fun q hq => hacc q (List.mem_cons_of_mem _ hq)) p hmem

theorem readDirLoop_routeOk (reader : List String → String → Except Unit VfsItem)
    (route : List String) (path : String)
    (hreader : ∀ r p item, reader r p = .ok item → routeOkB r item = true) :
    ∀ (entries : List (Except Unit String)) (acc : List (String × VfsItem)),
      (∀ q ∈ acc, routeOkB (route ++ [q.1]) q.2 = true) →
      ∀ children, readDirLoop reader route path entries acc = .ok children →
        ∀ q ∈ children, routeOkB (route ++ [q.1]) q.2 = true := by
  intro entries
  induction entries with
  | nil =>
    intro acc hacc children hloop
    simp only [readDirLoop] at hloop
    injection hloop with h
    exact h ▸ hacc
  | cons e rest ih =>
    intro acc hacc children hloop
    cases e with
    | error u => simp [readDirLoop] at hloop
    | ok name =>
      cases hr : reader (route ++ [name]) (path ++ "/" ++ name) with
      | ok item =>
        simp only [readDirLoop, hr] at hloop
        exact ih (insertChild acc name item)
          (insertChild_forall name item (hreader _ _ _ hr) acc hacc) children hloop
      | error u =>
        simp only [readDirLoop, hr] at hloop
        exact ih acc hacc children hloop

theorem read_path_routeOk (fs : FileSystem) :
    ∀ (fuel : Nat) (route : List String) (path : String) (item : VfsItem),
      read_path fs fuel route path = .ok item → routeOkB route item = true := by
  intro fuel
  induction fuel with
  | zero =>
    intro route path item h
    simp [read_path] at h
  | succ n ih =>
    intro route path item h
    simp only [read_path] at h
    cases hm : fs.metadata path with
    | none =>
      rw [hm] at h
      simp at h
    | some md =>
      rw [hm] at h
      cases md with
      | file =>
        simp only [read_file] at h
        cases hf : fs.readFileContents path with
        | none =>
          rw [hf] at h
          simp at h
        | some contents =>
          rw [hf] at h
          simp only [] at h
          injection h with h
          subst h
          simp [routeOkB]
      | other => simp at h
      | dir =>
        simp only [read_dirWith] at h
        cases hrd : fs.readDir path with
        | none =>
          rw [hrd] at h
          simp at h
        | some entries =>
          rw [hrd] at h
          simp only [] at h
          cases hloop : readDirLoop (fun r p => read_path fs n r p) route path entries [] with
          | error u =>
            rw [hloop] at h
            simp at h
          | ok children =>
            rw [hloop] at h
            simp only [] at h
            injection h with h
            subst h
            simp only [routeOkB, Bool.and_eq_true, beq_self_eq_true, true_and]
            rw [childrenOkB_iff]
            exact readDirLoop_routeOk (fun r p => read_path fs n r p) route path
              (fun r p it hh => ih r p it hh) entries [] (by simp) children hloop

theorem routeOkB_route_eq (r : List String) (item : VfsItem)
    (h : routeOkB r item = true) : item.route = r := by
  cases item with
  | file route contents => simpa [routeOkB, VfsItem.route, beq_iff_eq] using h
  | dir route children =>
    simp only [routeOkB, Bool.and_eq_true, beq_iff_eq] at h
    simpa [VfsItem.route] using h.1

/-- C7: every item returned by a successful `read` satisfies the route
invariant: its own route is exactly the input route, and recursively every
child of a directory is keyed by its name `n` and carries the parent's
route extended by `[n]` (checked by `routeOkB`). -/
theorem read_satisfies_route_invariant (vfs : Vfs) (fs : FileSystem)
    (fuel : Nat) (route : List String) (item : VfsItem)
    (h : vfs.read fs fuel route = .ok item) :
    routeOkB route item = true ∧ item.route = route := by
  unfold Vfs.read at h
  cases hp : vfs.route_to_path route with
  | none =>
    rw [hp] at h
    simp at h
  | some path =>
    rw [hp] at h
    simp only [] at h
    have hok := read_path_routeOk fs fuel route path item h
    exact ⟨hok, routeOkB_route_eq route item hok⟩

/-- Witness for C7: the tree read at route `["p"]` satisfies the route
invariant and carries the input route. -/
theorem read_satisfies_route_invariant_witness :
    vfsWitnessC7.read fsWitnessDir 2 ["p"] =
      .ok (.dir ["p"] [("a", .file ["p", "a"] "hi")]) ∧
    routeOkB ["p"] (.dir ["p"] [("a", .file ["p", "a"] "hi")]) = true ∧
    (VfsItem.dir ["p"] [("a", VfsItem.file ["p", "a"] "hi")]).route = ["p"] := by
  have h := read_satisfies_route_invariant vfsWitnessC7 fsWitnessDir 2 ["p"]
    (.dir ["p"] [("a", .file ["p", "a"] "hi")]) rfl
  exact ⟨rfl, h.1, h.2⟩
